import Mathlib

/-!
Verification development for the ts-path-alias-to-relative tool
(src/index.js).  The tool rewrites TypeScript import statements that use
configured path aliases into relative paths.

Strings of the JavaScript source are embedded as `List Char`.  The Node
`path` module (posix flavour) and the one import-statement regular
expression of the source are embedded as executable Lean functions.
-/

namespace TsAlias

/-! ## Basic string operations (JavaScript String.prototype semantics) -/

/-- JavaScript `s.replace(pat, rep)` with a string pattern: replaces the
first occurrence of `pat` in `s` (anywhere, not anchored); returns `s`
unchanged when `pat` does not occur.  Substitution patterns with a dollar
sign are not modelled; no replacement string used by this program
contains one. -/
def replaceFirstL (pat rep : List Char) : List Char → List Char
  | [] => if pat = [] then rep else []
  | c :: s2 =>
    if pat.isPrefixOf (c :: s2) then rep ++ (c :: s2).drop pat.length
    else c :: replaceFirstL pat rep s2

/-- Index of the first occurrence of `pat` in a string, if any. -/
def indexOfL (pat : List Char) : List Char → Option Nat
  | [] => if pat = [] then some 0 else none
  | c :: s2 =>
    if pat.isPrefixOf (c :: s2) then some 0
    else (indexOfL pat s2).map (· + 1)

/-- JavaScript `a.includes(b)`: substring containment. -/
def containsSub (hay needle : List Char) : Bool :=
  (indexOfL needle hay).isSome

/-! ## The alias matcher

`preparePaths` compiles each alias key with
`new RegExp('^' + alias.replace(/\*/g, '.*') + '$')`.
Every `*` of the alias hence becomes the regex `.*` and every other
character is interpreted by the regex engine as written; in particular a
dot of the alias is the regex any-character metacharacter.  The aliases
this development considers contain no regex metacharacter other than `.`
and `*`, so the anchored-match semantics of that compiled regex is
captured exactly by the token interpretation below (`.` of JavaScript
regexes does not match line terminators). -/

inductive RTok where
  | anyseq
  | anychar
  | lit (c : Char)

/-- Character is not a JavaScript regex line terminator. -/
def notNL (c : Char) : Bool :=
  !(c = '\n' || c = '\r' || c = '\u2028' || c = '\u2029')

/-- Tokens of the compiled alias regex: `*` becomes `.*` (any sequence of
non-terminator characters), `.` is the any-character metacharacter, and
every other character matches itself. -/
def aliasToks (aliasKey : List Char) : List RTok :=
  aliasKey.map fun c =>
    if c = '*' then RTok.anyseq else if c = '.' then RTok.anychar else RTok.lit c

/-- Anchored matching of a token list against a whole string, with the
greedy-or-backtrack semantics of the regex engine (for an anchored full
match only success matters, so order of exploration is irrelevant).
Every recursive call shrinks the token list or the string, so the fuel
`ts.length + s.length + 1` supplied by `toksMatch` never runs out. -/
def toksMatchAux : Nat → List RTok → List Char → Bool
  | 0, _, _ => false
  | fuel + 1, ts, s =>
    match ts, s with
    | [], [] => true
    | [], _ :: _ => false
    | RTok.anyseq :: ts2, [] => toksMatchAux fuel ts2 []
    | RTok.anyseq :: ts2, c :: s2 =>
      toksMatchAux fuel ts2 (c :: s2) ||
        (notNL c && toksMatchAux fuel (RTok.anyseq :: ts2) s2)
    | RTok.anychar :: _, [] => false
    | RTok.anychar :: ts2, c :: s2 => notNL c && toksMatchAux fuel ts2 s2
    | RTok.lit _ :: _, [] => false
    | RTok.lit d :: ts2, c :: s2 => c = d && toksMatchAux fuel ts2 s2

/-- Anchored match of the token list against the whole string. -/
def toksMatch (ts : List RTok) (s : List Char) : Bool :=
  toksMatchAux (ts.length + s.length + 1) ts s

/-- Interpretation the glob-style alias notation denotes (specification
side, for claim C10): only `*` is a wildcard; a dot of the alias is a
literal dot. -/
def globToks (aliasKey : List Char) : List RTok :=
  aliasKey.map fun c => if c = '*' then RTok.anyseq else RTok.lit c

/-- Modelled from the spec side for claim C10: acceptance under the
glob-style reading of the alias (every non-`*` character literal). -/
def specGlobAccepts (aliasKey s : List Char) : Bool :=
  toksMatch (globToks aliasKey) s

/-! ## The AliasTable builder (`preparePaths`, src/index.js lines 119-136) -/

/-- One rule of the alias table, as built by `preparePaths`:
the original alias key (kept compiled as `aliasRegex` in the source, kept
verbatim here and compiled by `ruleAccepts`), the stripped alias —
field `alias` of the source object, `alias.replace('/*', '')`, named
`aliasName` here because `alias` is reserved in Lean — and the first
target path with its wildcard stripped (`paths[0].replace('/*', '')`). -/
structure AliasRule where
  pattern : List Char
  aliasName : List Char
  path : List Char

deriving instance DecidableEq for AliasRule

/-- The compiled matcher of a rule: the anchored regex built from the
original alias key. -/
def ruleAccepts (r : AliasRule) (s : List Char) : Bool :=
  toksMatch (aliasToks r.pattern) s

/-- `alias.replace('/*', '')`: first occurrence of the two-character
wildcard marker removed. -/
def stripWild (s : List Char) : List Char :=
  replaceFirstL (['/', '*']) [] s

inductive ConfigError where
  | noPathsMapping
  | emptyTargets (aliasKey : List Char)

deriving instance DecidableEq for ConfigError

deriving instance DecidableEq for Except

/-- `compilerOptions` of a parsed tsconfig; `paths` entries are listed in
object insertion order, as `Object.entries` enumerates them. -/
structure CompilerOptions where
  paths : Option (List (List Char × List (List Char)))

/-- A parsed tsconfig value. -/
structure TsConfig where
  compilerOptions : Option CompilerOptions

/-- The exclusion filter of `preparePaths`: an alias is kept exactly when
it contains no entry of `excludedPaths` as a substring
(`!excludedPaths.some(p => alias.includes(p))`). -/
def filterExcluded (entries : List (List Char × List (List Char)))
    (excludedPaths : List (List Char)) : List (List Char × List (List Char)) :=
  entries.filter fun e => !(excludedPaths.any fun x => containsSub e.1 x)

/-- The map step of `preparePaths`: each kept entry becomes a rule from
its first target path.  An entry with an empty target array makes the
JavaScript `paths[0].replace` call throw; that failure is the
`emptyTargets` error here. -/
def buildRules : List (List Char × List (List Char)) → Except ConfigError (List AliasRule)
  | [] => .ok []
  | (aliasKey, targets) :: rest =>
    match targets with
    | [] => .error (.emptyTargets aliasKey)
    | t :: _ =>
      match buildRules rest with
      | .error e => .error e
      | .ok rs => .ok ({ pattern := aliasKey, aliasName := stripWild aliasKey, path := stripWild t } :: rs)

/-- Stable insertion of a rule into a list sorted by descending stripped
alias length: the rule goes before the first strictly shorter alias, so
rules of equal length keep their original order — the order produced by
the stable JavaScript sort with comparator `b.alias.length - a.alias.length`. -/
def insertRule (x : AliasRule) : List AliasRule → List AliasRule
  | [] => [x]
  | y :: ys => if y.aliasName.length < x.aliasName.length then x :: y :: ys else y :: insertRule x ys

/-- Stable sort by descending stripped alias length
(`.sort((a, b) => b.alias.length - a.alias.length)`). -/
def sortRules : List AliasRule → List AliasRule
  | [] => []
  | x :: xs => insertRule x (sortRules xs)

/-- `preparePaths` (src/index.js lines 119-136): reading
`tsconfig.compilerOptions.paths` throws when `compilerOptions` or `paths`
is absent (modelled by `noPathsMapping`); otherwise the entries are
filtered by the exclusion list, mapped to rules and sorted by descending
stripped alias length. -/
def preparePaths (tsconfig : TsConfig) (excludedPaths : List (List Char)) :
    Except ConfigError (List AliasRule) :=
  match tsconfig.compilerOptions with
  | none => .error .noPathsMapping
  | some co =>
    match co.paths with
    | none => .error .noPathsMapping
    | some entries =>
      match buildRules (filterExcluded entries excludedPaths) with
      | .error e => .error e
      | .ok rules => .ok (sortRules rules)

/-! ## The import scanner (`findMatches`, src/index.js lines 139-154)

The scanner uses the regular expression

  `import\s+[\w{},*\s]+\s+from\s+['"]([^'"]+)['"];`   (global flag)

and iterates it over the file content.  The expression is a fixed
sequence of literals and one-character classes with greedy `+`
repetition; it is embedded as that sequence, matched with the
backtracking (longest-first) strategy of the JavaScript engine. -/

/-- JavaScript `\s`, restricted to its ASCII members (the file contents
considered contain no exotic Unicode whitespace). -/
def isWs (c : Char) : Bool :=
  c = ' ' || c = '\t' || c = '\n' || c = '\r' || c = '\x0b' || c = '\x0c'

/-- JavaScript `\w`. -/
def isWordChar (c : Char) : Bool :=
  ('a' ≤ c && c ≤ 'z') || ('A' ≤ c && c ≤ 'Z') || ('0' ≤ c && c ≤ '9') || c = '_'

/-- The bindings-clause class `[\w{},*\s]`. -/
def isBindChar (c : Char) : Bool :=
  isWordChar c || c = '{' || c = '}' || c = ',' || c = '*' || isWs c

/-- The quote class `['"]`. -/
def isQuote (c : Char) : Bool :=
  c = '\'' || c = '"'

/-- One element of the fixed regex sequence: a literal string, a single
character of a class, a greedy one-or-more repetition of a class, or the
same inside the capture group. -/
inductive RElem where
  | lit (cs : List Char)
  | one (p : Char → Bool)
  | plus (p : Char → Bool)
  | cplus (p : Char → Bool)

/-- All ways to split off a non-empty run of `p`-characters from the
front of `s`, longest first — the exploration order of a greedy `+`. -/
def plusSplits (p : Char → Bool) (s : List Char) : List (List Char × List Char) :=
  (List.range (s.takeWhile p).length).map fun i =>
    (s.take ((s.takeWhile p).length - i), s.drop ((s.takeWhile p).length - i))

/-- First success of `f` along a list (backtracking search). -/
def firstSome : List α → (α → Option β) → Option β
  | [], _ => none
  | a :: as, f =>
    match f a with
    | some b => some b
    | none => firstSome as f

/-- Backtracking matcher for a sequence of regex elements at the start of
`s`.  Returns the consumed text, the concatenated capture-group text and
the remaining input of the first match found in greedy order — exactly
the JavaScript engine on such a sequence. -/
def matchElems : List RElem → List Char → Option (List Char × List Char × List Char)
  | [], s => some ([], [], s)
  | RElem.lit cs :: es, s =>
    if cs.isPrefixOf s then
      (matchElems es (s.drop cs.length)).map fun (m, cap, r) => (cs ++ m, cap, r)
    else none
  | RElem.one _ :: _, [] => none
  | RElem.one p :: es, c :: s =>
    if p c then (matchElems es s).map fun (m, cap, r) => (c :: m, cap, r) else none
  | RElem.plus p :: es, s =>
    firstSome (plusSplits p s) fun (seg, rest) =>
      (matchElems es rest).map fun (m, cap, r) => (seg ++ m, cap, r)
  | RElem.cplus p :: es, s =>
    firstSome (plusSplits p s) fun (seg, rest) =>
      (matchElems es rest).map fun (m, cap, r) => (seg ++ m, seg ++ cap, r)

/-- The element sequence of the import regex of `findMatches`:
`import`, `\s+`, `[\w{},*\s]+`, `\s+`, `from`, `\s+`, `['"]`,
`([^'"]+)` (capture), `['"]`, `;`. -/
def importRE : List RElem :=
  [ RElem.lit ("import").data, RElem.plus isWs, RElem.plus isBindChar,
    RElem.plus isWs, RElem.lit ("from").data, RElem.plus isWs,
    RElem.one isQuote, RElem.cplus (fun c => !isQuote c),
    RElem.one isQuote, RElem.lit [';'] ]

/-- Attempt the import regex at the start of the input. -/
def matchImport (s : List Char) : Option (List Char × List Char × List Char) :=
  matchElems importRE s

/-- One pass of the global regex over the text, as
`content.replace(importRegex, fn)` iterates it: leftmost matches, each
search resuming after the end of the previous match.  Each result is the
whole matched statement together with its captured import path.  The
fuel is an upper bound on the scanning steps; every step consumes at
least one character, so `length + 1` never runs out. -/
def scanAux : Nat → List Char → List (List Char × List Char)
  | 0, _ => []
  | fuel + 1, s =>
    match matchImport s with
    | some (m, cap, r) => (m, cap) :: scanAux fuel r
    | none =>
      match s with
      | [] => []
      | _ :: s2 => scanAux fuel s2

/-- All matches of the import regex in a text, in order of appearance,
with their captured import-path literals. -/
def scanText (s : List Char) : List (List Char × List Char) :=
  scanAux (s.length + 1) s

/-- One recorded match of `findMatches`: the source pushes
`{ match, alias, importPath, aliasPath: path }`; the `match` field is
named `text` here because `match` is reserved in Lean. -/
structure MatchRec where
  text : List Char
  aliasName : List Char
  importPath : List Char
  aliasPath : List Char

deriving instance DecidableEq for MatchRec

/-- The classification loop of `findMatches`: for every statement found
by the regex, the first rule in table order whose compiled alias regex
accepts the captured import path is taken; a statement whose path no
rule accepts is not recorded. -/
def scanMatches (content : List Char) (table : List AliasRule) : List MatchRec :=
  (scanText content).filterMap fun mc =>
    (table.find? fun r => ruleAccepts r mc.2).map fun r =>
      { text := mc.1, aliasName := r.aliasName, importPath := mc.2, aliasPath := r.path }

/-! ## The Node `path` module (posix flavour)

`replaceAliases` uses `path.dirname`, `path.relative` and `path.join`.
They are embedded for posix path strings.  `path.relative` resolves its
arguments against the current working directory; the working directory
appears here as an explicit list of already-clean segments so that the
theorems can quantify over it.  Trailing-slash preservation of
`path.normalize` is not modelled; no path handled by this program ends
in a slash. -/

/-- Split a string at every slash (like `String.prototype.split('/')`). -/
def splitSlash : List Char → List (List Char)
  | [] => [[]]
  | c :: rest =>
    if c = '/' then [] :: splitSlash rest
    else
      match splitSlash rest with
      | [] => [[c]]
      | g :: gs => (c :: g) :: gs

/-- Join segments with slashes. -/
def intercalateSlash : List (List Char) → List Char
  | [] => []
  | [g] => g
  | g :: gs => g ++ '/' :: intercalateSlash gs

/-- One step of the segment normalization of `path.normalize` /
`path.resolve`: empty and `.` segments are dropped; `..` pops the last
real segment, and when there is nothing to pop it is kept for relative
paths and dropped for absolute ones.  The stack is kept reversed. -/
def normStep (isAbs : Bool) (stack : List (List Char)) (seg : List Char) : List (List Char) :=
  if seg = [] ∨ seg = ['.'] then stack
  else if seg = ['.', '.'] then
    match stack with
    | [] => if isAbs then [] else [seg]
    | top :: rest => if top = ['.', '.'] then seg :: stack else rest
  else seg :: stack

/-- Normalized segment list of a segment sequence. -/
def normSegs (isAbs : Bool) (segs : List (List Char)) : List (List Char) :=
  (segs.foldl (normStep isAbs) []).reverse

/-- `path.posix.normalize` on a path without trailing slash. -/
def normalizePath (s : List Char) : List Char :=
  match normSegs (s.head? = some '/') (splitSlash s) with
  | [] => if s.head? = some '/' then ['/'] else ['.']
  | g :: gs => (if s.head? = some '/' then ['/'] else []) ++ intercalateSlash (g :: gs)

/-- `path.posix.join(a, b)`: the non-empty arguments are joined with a
slash and the result normalized; with no non-empty argument the result
is `.`. -/
def posixJoin (a b : List Char) : List Char :=
  match [a, b].filter (· ≠ []) with
  | [] => ['.']
  | parts => normalizePath (intercalateSlash parts)

/-- `path.posix.resolve(p)` as a segment list, with the working
directory given as clean absolute segments. -/
def resolveSegs (cwd : List (List Char)) (p : List Char) : List (List Char) :=
  normSegs true ((if p.head? = some '/' then [] else cwd) ++ splitSlash p)

/-- Drop the common leading segments of two segment lists. -/
def dropCommon : List (List Char) → List (List Char) → List (List Char) × List (List Char)
  | a :: as, b :: bs => if a = b then dropCommon as bs else (a :: as, b :: bs)
  | as, bs => (as, bs)

/-- `path.posix.relative(fromP, toP)`: both arguments resolved against
the working directory, the common prefix dropped, one `..` emitted per
remaining segment of the origin and the remaining target segments
appended. -/
def posixRelative (cwd : List (List Char)) (fromP toP : List Char) : List Char :=
  match dropCommon (resolveSegs cwd fromP) (resolveSegs cwd toP) with
  | (f2, t2) => intercalateSlash (f2.map (fun _ => ['.', '.']) ++ t2)

/-- `path.posix.dirname`, by the algorithm of the Node source: trailing
slashes are skipped, the slash ending the directory part located (never
at index 0), and the prefix before it returned; without such a slash the
result is `/` for rooted paths and `.` otherwise. -/
def dirnameL (s : List Char) : List Char :=
  match s with
  | [] => ['.']
  | c0 :: rest =>
    let hasRoot := c0 = '/'
    match (rest.reverse.dropWhile (· = '/')).dropWhile (· ≠ '/') with
    | [] => if hasRoot then ['/'] else ['.']
    | _ :: r3 => if hasRoot ∧ r3 = [] then ['/', '/'] else c0 :: r3.reverse

/-! ## The path rewriter (`replaceAliases`, src/index.js lines 157-169) -/

/-- `importPath.replace(alias, '')` — the suffix of a match: the first
occurrence of the stripped alias removed from the import path. -/
def suffixFor (m : MatchRec) : List Char :=
  replaceFirstL m.aliasName [] m.importPath

/-- The replacement path of a match:
`path.join(path.relative(path.dirname(targetFilePath), aliasPath), importPath.replace(alias, ''))`. -/
def newPathFor (cwd : List (List Char)) (targetFilePath : List Char) (m : MatchRec) : List Char :=
  posixJoin (posixRelative cwd (dirnameL targetFilePath) m.aliasPath) (suffixFor m)

/-- `replaceAliases(matches, targetFileContent, targetFilePath)`: for
each match in order, the statement text has the first occurrence of
the import path replaced by the new path, and the running result has the
first occurrence of the statement text replaced by that fixed
statement. -/
def replaceAliases (cwd : List (List Char)) (ms : List MatchRec)
    (targetFileContent targetFilePath : List Char) : List Char :=
  ms.foldl
    (fun result m =>
      replaceFirstL m.text
        (replaceFirstL m.importPath (newPathFor cwd targetFilePath m) m.text) result)
    targetFileContent

/-! ## The batch orchestrator (`findMatches` file access and
`replaceImports`, src/index.js lines 231-241) -/

inductive FileError where
  | unreadable (path : List Char)

deriving instance DecidableEq for FileError

/-- `findMatches(targetFilePath, paths)`: reads the file — a throwing
`readFileSync` is the `unreadable` error — scans it and returns the
recorded matches together with the unmodified content. -/
def findMatches (fs : List Char → Option (List Char)) (targetFilePath : List Char)
    (table : List AliasRule) : Except FileError (List MatchRec × List Char) :=
  match fs targetFilePath with
  | none => .error (.unreadable targetFilePath)
  | some content => .ok (scanMatches content table, content)

/-- Outcome of a `replaceImports` run: the accumulated count of
fixed import statements, the (path, new content) pairs submitted to
`writeResultToFile` in order, and the first uncaught per-file error if
one occurred.  The source has no try/catch, so an error thrown while
reading a file ends the `forEach` iteration: nothing after the failing
file is processed. -/
structure BatchResult where
  count : Nat
  writes : List (List Char × List Char)
  err : Option FileError

deriving instance DecidableEq for BatchResult

/-- `replaceImports({files, paths})`: each file is scanned; files with
zero matches are skipped (not written); otherwise the rewritten content
is submitted and the match count accumulated.  An unreadable file stops
the iteration with its error. -/
def replaceImports (cwd : List (List Char)) (fs : List Char → Option (List Char))
    (files : List (List Char)) (table : List AliasRule) : BatchResult :=
  match files with
  | [] => { count := 0, writes := [], err := none }
  | f :: rest =>
    match findMatches fs f table with
    | .error e => { count := 0, writes := [], err := some e }
    | .ok (ms, content) =>
      if ms.isEmpty then replaceImports cwd fs rest table
      else
        let r := replaceImports cwd fs rest table
        { count := ms.length + r.count,
          writes := (f, replaceAliases cwd ms content f) :: r.writes,
          err := r.err }

/-- The run up to file processing, as `main` sequences it: the alias
table is built by `preparePaths` before any file is touched, so a
configuration error ends the run with no file processed. -/
def runBatch (cwd : List (List Char)) (fs : List Char → Option (List Char))
    (tsconfig : TsConfig) (excludedPaths : List (List Char))
    (files : List (List Char)) : Except ConfigError BatchResult :=
  match preparePaths tsconfig excludedPaths with
  | .error e => .error e
  | .ok table => .ok (replaceImports cwd fs files table)

/-! ## Specification-side definitions

These definitions follow the words of the specification (not the
source); the theorems below compare them with the embedded code. -/

/-- Declarative reading of a regex element sequence: the consumed text
decomposes element by element, and the capture is the concatenation of
the capture-group segments. -/
def ConsumesCap : List RElem → List Char → List Char → Prop
  | [], m, cap => m = [] ∧ cap = []
  | RElem.lit cs :: es, m, cap => ∃ m2, m = cs ++ m2 ∧ ConsumesCap es m2 cap
  | RElem.one p :: es, m, cap => ∃ c m2, m = c :: m2 ∧ p c = true ∧ ConsumesCap es m2 cap
  | RElem.plus p :: es, m, cap =>
    ∃ seg m2, m = seg ++ m2 ∧ seg ≠ [] ∧ (∀ c ∈ seg, p c = true) ∧ ConsumesCap es m2 cap
  | RElem.cplus p :: es, m, cap =>
    ∃ seg m2 cap2, m = seg ++ m2 ∧ cap = seg ++ cap2 ∧ seg ≠ [] ∧
      (∀ c ∈ seg, p c = true) ∧ ConsumesCap es m2 cap2

/-- Modelled from the spec (statement shape of the Import Scanner,
amended): the word `import`, whitespace, a bindings clause of word
characters, braces, commas, `*` and whitespace, `from`, whitespace, a
single- or double-quoted non-empty literal, and a mandatory trailing
semicolon.  `lit` is the module path inside the quotes. -/
def specImportShape (m lit : List Char) : Prop :=
  ∃ w1 b w2 w3 q1 q2,
    m = ("import").data ++ w1 ++ b ++ w2 ++ ("from").data ++ w3 ++
        q1 :: (lit ++ q2 :: [';']) ∧
    w1 ≠ [] ∧ (∀ c ∈ w1, isWs c = true) ∧
    b ≠ [] ∧ (∀ c ∈ b, isBindChar c = true) ∧
    w2 ≠ [] ∧ (∀ c ∈ w2, isWs c = true) ∧
    w3 ≠ [] ∧ (∀ c ∈ w3, isWs c = true) ∧
    isQuote q1 = true ∧ isQuote q2 = true ∧
    lit ≠ [] ∧ (∀ c ∈ lit, isQuote c = false)

/-- Modelled from the spec (claim C7): single front-anchored removal of
a prefix — the prefix is removed only when it stands at the very start
of the literal, otherwise nothing is removed. -/
def specFrontRemoval (pre lit : List Char) : List Char :=
  if pre.isPrefixOf lit then lit.drop pre.length else lit

/-! ## Lemmas about the string primitives -/

theorem prefix_exists {l₁ l₂ : List Char} : l₁.isPrefixOf l₂ = true ↔ ∃ t, l₂ = l₁ ++ t := by
  rw [ List.isPrefixOf_iff_prefix]
  exact ⟨fun ⟨t, ht⟩ => ⟨t, ht.symm⟩, fun ⟨t, ht⟩ => ⟨t, ht.symm⟩⟩

theorem replaceFirst_front {pat s rep : List Char} (h : pat.isPrefixOf s = true) :
    replaceFirstL pat rep s = rep ++ s.drop pat.length := by
  cases s with
  | nil =>
    rcases prefix_exists.mp h with ⟨t, ht⟩
    rcases List.append_eq_nil.mp ht.symm with ⟨hpat, -⟩
    simp [replaceFirstL, hpat]
  | cons c s2 => simp [replaceFirstL, h]

theorem replace_at {pat rep : List Char} : ∀ (a b : List Char),
    indexOfL pat (a ++ pat ++ b) = some a.length →
    replaceFirstL pat rep (a ++ pat ++ b) = a ++ rep ++ b
  | [], b, _ => by
    have hp : pat.isPrefixOf (pat ++ b) = true := prefix_exists.mpr ⟨b, rfl⟩
    rw [List.nil_append, List.nil_append, replaceFirst_front hp, List.drop_left]
  | c :: a', b, h => by
    simp only [List.cons_append] at h ⊢
    by_cases hp : pat.isPrefixOf (c :: (a' ++ pat ++ b)) = true
    · rw [indexOfL, if_pos hp] at h
      simp [List.length_cons] at h
    · rw [indexOfL, if_neg hp] at h
      rw [replaceFirstL, if_neg hp]
      rcases Option.map_eq_some'.mp h with ⟨n, hn, hadd⟩
      simp only [List.length_cons] at hadd
      have hlen : n = a'.length := by omega
      rw [replace_at a' b (hlen ▸ hn)]

theorem indexOf_isSome_iff {pat : List Char} : ∀ {s : List Char},
    (indexOfL pat s).isSome = true ↔ ∃ u v, s = u ++ pat ++ v := by
  intro s
  induction s with
  | nil =>
    constructor
    · intro h
      rw [indexOfL] at h
      by_cases hpat : pat = []
      · exact ⟨[], [], by simp [hpat]⟩
      · simp [hpat] at h
    · rintro ⟨u, v, huv⟩
      rcases List.append_eq_nil.mp huv.symm with ⟨h1, h2⟩
      rcases List.append_eq_nil.mp h1 with ⟨-, hpat⟩
      simp [indexOfL, hpat]
  | cons c s2 ih =>
    by_cases hp : pat.isPrefixOf (c :: s2) = true
    · rcases prefix_exists.mp hp with ⟨t, ht⟩
      constructor
      · intro _
        exact ⟨[], t, by simpa using ht⟩
      · intro _
        simp [indexOfL, hp]
    · constructor
      · intro h
        rw [indexOfL, if_neg hp] at h
        rcases ih.mp (by simpa using h) with ⟨u, v, huv⟩
        exact ⟨c :: u, v, by simp [huv]⟩
      · rintro ⟨u, v, huv⟩
        cases u with
        | nil =>
          exact absurd (prefix_exists.mpr ⟨v, by simpa using huv⟩) hp
        | cons c' u' =>
          rw [indexOfL, if_neg hp]
          simp only [List.cons_append, List.cons.injEq] at huv
          have := ih.mpr ⟨u', v, huv.2⟩
          simpa using this

/-! ## Lemmas about the table sort -/

theorem chain_insertRule (x : AliasRule) : ∀ (l : List AliasRule),
    List.Chain' (fun a b => b.aliasName.length ≤ a.aliasName.length) l →
    List.Chain' (fun a b => b.aliasName.length ≤ a.aliasName.length) (insertRule x l)
  | [], _ => List.chain'_singleton x
  | y :: ys, h => by
    rw [insertRule]
    by_cases hlt : y.aliasName.length < x.aliasName.length
    · rw [if_pos hlt]
      exact List.chain'_cons.mpr ⟨Nat.le_of_lt hlt, h⟩
    · rw [if_neg hlt]
      have hyx : x.aliasName.length ≤ y.aliasName.length := Nat.le_of_not_lt hlt
      have hys := chain_insertRule x ys h.tail
      cases ys with
      | nil =>
        rw [insertRule]
        exact List.chain'_cons.mpr ⟨hyx, List.chain'_singleton x⟩
      | cons z ys2 =>
        rw [insertRule] at hys ⊢
        by_cases hz : z.aliasName.length < x.aliasName.length
        · rw [if_pos hz] at hys ⊢
          exact List.chain'_cons.mpr ⟨hyx, hys⟩
        · rw [if_neg hz] at hys ⊢
          exact List.chain'_cons.mpr ⟨(List.chain'_cons.mp h).1, hys⟩

theorem chain_sortRules : ∀ (l : List AliasRule),
    List.Chain' (fun a b => b.aliasName.length ≤ a.aliasName.length) (sortRules l)
  | [] => List.chain'_nil
  | x :: xs => chain_insertRule x (sortRules xs) (chain_sortRules xs)

/-! ## Lemmas about the backtracking matcher -/

theorem firstSome_isSome {α β : Type} {l : List α} {f : α → Option β} :
    (firstSome l f).isSome = true ↔ ∃ a ∈ l, (f a).isSome = true := by
  induction l with
  | nil => simp [firstSome]
  | cons a as ih =>
    rw [firstSome]
    cases hfa : f a with
    | some b => simp [hfa]
    | none => simp [hfa, ih]

theorem firstSome_eq_some {α β : Type} {l : List α} {f : α → Option β} {b : β}
    (h : firstSome l f = some b) : ∃ a ∈ l, f a = some b := by
  induction l with
  | nil => simp [firstSome] at h
  | cons a as ih =>
    rw [firstSome] at h
    cases hfa : f a with
    | some c =>
      simp only [hfa] at h
      exact ⟨a, by simp, by rw [hfa, h]⟩
    | none =>
      simp only [hfa] at h
      rcases ih h with ⟨x, hx, hfx⟩
      exact ⟨x, by simp [hx], hfx⟩

theorem take_of_le_takeWhile {p : Char → Bool} : ∀ {s : List Char} {k : Nat},
    k ≤ (s.takeWhile p).length → ∀ c ∈ s.take k, p c = true := by
  intro s
  induction s with
  | nil => intro k _ c hc; simp at hc
  | cons a s2 ih =>
    intro k hk c hc
    by_cases hpa : p a = true
    · rw [List.takeWhile_cons, if_pos hpa] at hk
      cases k with
      | zero => simp at hc
      | succ k2 =>
        rw [List.take_succ_cons] at hc
        rcases List.mem_cons.mp hc with rfl | hmem
        · exact hpa
        · exact ih (Nat.le_of_succ_le_succ (by simpa using hk)) c hmem
    · rw [List.takeWhile_cons, if_neg hpa] at hk
      simp at hk
      subst hk
      simp at hc

theorem takeWhile_length_of_all {p : Char → Bool} : ∀ {seg : List Char} (rest : List Char),
    (∀ c ∈ seg, p c = true) → seg.length ≤ ((seg ++ rest).takeWhile p).length := by
  intro seg
  induction seg with
  | nil => intro rest _; simp
  | cons a s2 ih =>
    intro rest hall
    have hpa : p a = true := hall a (by simp)
    rw [List.cons_append, List.takeWhile_cons, if_pos hpa]
    simpa using ih rest (fun c hc => hall c (by simp [hc]))

theorem mem_plusSplits {p : Char → Bool} {s seg rest : List Char} :
    (seg, rest) ∈ plusSplits p s ↔
      seg ≠ [] ∧ (∀ c ∈ seg, p c = true) ∧ s = seg ++ rest := by
  unfold plusSplits
  constructor
  · intro hmem
    rcases List.mem_map.mp hmem with ⟨i, hi, heq⟩
    rw [List.mem_range] at hi
    rw [Prod.mk.injEq] at heq
    obtain ⟨h1, h2⟩ := heq
    subst h1
    subst h2
    refine ⟨?_, ?_, (List.take_append_drop _ s).symm⟩
    · have hs : s ≠ [] := by
        intro hnil
        rw [hnil] at hi
        simp at hi
      have hkpos : 0 < (s.takeWhile p).length - i := by omega
      intro htake
      rcases List.take_eq_nil_iff.mp htake with h | h
      · omega
      · exact hs h
    · exact take_of_le_takeWhile (by omega)
  · rintro ⟨hne, hall, rfl⟩
    have hk1 : 1 ≤ seg.length := List.length_pos.mpr hne
    have hkn : seg.length ≤ ((seg ++ rest).takeWhile p).length :=
      takeWhile_length_of_all rest hall
    refine List.mem_map.mpr ⟨((seg ++ rest).takeWhile p).length - seg.length,
      List.mem_range.mpr (by omega), ?_⟩
    have hsub : ((seg ++ rest).takeWhile p).length -
        (((seg ++ rest).takeWhile p).length - seg.length) = seg.length := by omega
    rw [hsub, Prod.mk.injEq]
    exact ⟨List.take_left seg rest, List.drop_left seg rest⟩

theorem matchElems_sound : ∀ (es : List RElem) (s m cap r : List Char),
    matchElems es s = some (m, cap, r) → s = m ++ r ∧ ConsumesCap es m cap
  | [], s, m, cap, r, h => by
    rw [matchElems] at h
    simp only [Option.some.injEq, Prod.mk.injEq] at h
    obtain ⟨rfl, rfl, rfl⟩ := h
    exact ⟨rfl, rfl, rfl⟩
  | RElem.lit cs :: es, s, m, cap, r, h => by
    rw [matchElems] at h
    by_cases hp : cs.isPrefixOf s = true
    · rw [if_pos hp] at h
      rcases Option.map_eq_some'.mp h with ⟨⟨m2, cap2, r2⟩, hrec, heq⟩
      simp only [Prod.mk.injEq] at heq
      obtain ⟨rfl, rfl, rfl⟩ := heq
      rcases prefix_exists.mp hp with ⟨t, rfl⟩
      rw [List.drop_left] at hrec
      obtain ⟨rfl, hcc⟩ := matchElems_sound es t m2 _ r2 hrec
      exact ⟨by simp, m2, rfl, hcc⟩
    · rw [if_neg hp] at h
      simp at h
  | RElem.one p :: es, s, m, cap, r, h => by
    cases s with
    | nil => rw [matchElems] at h; simp at h
    | cons c s2 =>
      rw [matchElems] at h
      by_cases hpc : p c = true
      · rw [if_pos hpc] at h
        rcases Option.map_eq_some'.mp h with ⟨⟨m2, cap2, r2⟩, hrec, heq⟩
        simp only [Prod.mk.injEq] at heq
        obtain ⟨rfl, rfl, rfl⟩ := heq
        obtain ⟨rfl, hcc⟩ := matchElems_sound es s2 m2 _ r2 hrec
        exact ⟨rfl, c, m2, rfl, hpc, hcc⟩
      · rw [if_neg hpc] at h
        simp at h
  | RElem.plus p :: es, s, m, cap, r, h => by
    rw [matchElems] at h
    rcases firstSome_eq_some h with ⟨⟨seg, rest⟩, hmem, hf⟩
    rcases mem_plusSplits.mp hmem with ⟨hne, hall, rfl⟩
    rcases Option.map_eq_some'.mp hf with ⟨⟨m2, cap2, r2⟩, hrec, heq⟩
    simp only [Prod.mk.injEq] at heq
    obtain ⟨rfl, rfl, rfl⟩ := heq
    obtain ⟨rfl, hcc⟩ := matchElems_sound es rest m2 _ r2 hrec
    exact ⟨by simp, seg, m2, rfl, hne, hall, hcc⟩
  | RElem.cplus p :: es, s, m, cap, r, h => by
    rw [matchElems] at h
    rcases firstSome_eq_some h with ⟨⟨seg, rest⟩, hmem, hf⟩
    rcases mem_plusSplits.mp hmem with ⟨hne, hall, rfl⟩
    rcases Option.map_eq_some'.mp hf with ⟨⟨m2, cap2, r2⟩, hrec, heq⟩
    simp only [Prod.mk.injEq] at heq
    obtain ⟨rfl, rfl, rfl⟩ := heq
    obtain ⟨rfl, hcc⟩ := matchElems_sound es rest m2 cap2 r2 hrec
    exact ⟨by simp, seg, m2, cap2, rfl, rfl, hne, hall, hcc⟩

theorem matchElems_complete : ∀ (es : List RElem) (m cap : List Char),
    ConsumesCap es m cap → ∀ (r : List Char), (matchElems es (m ++ r)).isSome = true
  | [], m, cap, h, r => by
    obtain ⟨rfl, rfl⟩ := h
    rw [matchElems]
    simp
  | RElem.lit cs :: es, m, cap, h, r => by
    obtain ⟨m2, rfl, h2⟩ := h
    rw [matchElems]
    have hp : cs.isPrefixOf (cs ++ m2 ++ r) = true :=
      prefix_exists.mpr ⟨m2 ++ r, by simp⟩
    rw [if_pos hp]
    rw [List.append_assoc, List.drop_left]
    simpa using matchElems_complete es m2 cap h2 r
  | RElem.one p :: es, m, cap, h, r => by
    obtain ⟨c, m2, rfl, hpc, h2⟩ := h
    rw [List.cons_append, matchElems, if_pos hpc]
    simpa using matchElems_complete es m2 cap h2 r
  | RElem.plus p :: es, m, cap, h, r => by
    obtain ⟨seg, m2, rfl, hne, hall, h2⟩ := h
    rw [matchElems]
    apply firstSome_isSome.mpr
    refine ⟨(seg, m2 ++ r), mem_plusSplits.mpr ⟨hne, hall, by simp⟩, ?_⟩
    simpa using matchElems_complete es m2 cap h2 r
  | RElem.cplus p :: es, m, cap, h, r => by
    obtain ⟨seg, m2, cap2, rfl, rfl, hne, hall, h2⟩ := h
    rw [matchElems]
    apply firstSome_isSome.mpr
    refine ⟨(seg, m2 ++ r), mem_plusSplits.mpr ⟨hne, hall, by simp⟩, ?_⟩
    simpa using matchElems_complete es m2 cap2 h2 r

theorem consumes_importRE_iff {m cap : List Char} :
    ConsumesCap importRE m cap ↔ specImportShape m cap := by
  constructor
  · intro h
    simp only [importRE, ConsumesCap] at h
    obtain ⟨m1, rfl, w1, m2, rfl, hw1ne, hw1,
      b, m3, rfl, hbne, hb,
      w2, m4, rfl, hw2ne, hw2,
      m5, rfl,
      w3, m6, rfl, hw3ne, hw3,
      q1, m7, rfl, hq1,
      seg, m8, cap2, rfl, hcap, hsegne, hseg,
      q2, m9, rfl, hq2,
      m10, rfl,
      hm10, hcap2⟩ := h
    subst hm10
    subst hcap2
    simp only [List.append_nil] at hcap
    subst hcap
    refine ⟨w1, b, w2, w3, q1, q2, ?_, hw1ne, hw1, hbne, hb, hw2ne, hw2,
      hw3ne, hw3, hq1, hq2, hsegne, ?_⟩
    · simp [List.append_assoc]
    · intro c hc
      simpa using hseg c hc
  · rintro ⟨w1, b, w2, w3, q1, q2, rfl, hw1ne, hw1, hbne, hb, hw2ne, hw2,
      hw3ne, hw3, hq1, hq2, hlitne, hlitall⟩
    simp only [importRE, ConsumesCap]
    refine ⟨w1 ++ (b ++ (w2 ++ (("from").data ++ (w3 ++ (q1 :: (cap ++ (q2 :: [';'])))))))
      , (by simp [List.append_assoc]), ?_⟩
    refine ⟨w1, b ++ (w2 ++ (("from").data ++ (w3 ++ (q1 :: (cap ++ (q2 :: [';'])))))),
      rfl, hw1ne, hw1, ?_⟩
    refine ⟨b, w2 ++ (("from").data ++ (w3 ++ (q1 :: (cap ++ (q2 :: [';']))))),
      rfl, hbne, hb, ?_⟩
    refine ⟨w2, ("from").data ++ (w3 ++ (q1 :: (cap ++ (q2 :: [';'])))),
      rfl, hw2ne, hw2, ?_⟩
    refine ⟨w3 ++ (q1 :: (cap ++ (q2 :: [';']))), rfl, ?_⟩
    refine ⟨w3, q1 :: (cap ++ (q2 :: [';'])), rfl, hw3ne, hw3, ?_⟩
    refine ⟨q1, cap ++ (q2 :: [';']), rfl, hq1, ?_⟩
    refine ⟨cap, q2 :: [';'], [], by simp, by simp, hlitne, ?_, ?_⟩
    · intro c hc
      simpa using hlitall c hc
    · exact ⟨q2, [';'], rfl, hq2, [], rfl, rfl, rfl⟩

/-! ## Lemmas about path normalization -/

theorem splitSlash_no_slash : ∀ (s : List Char), ∀ g ∈ splitSlash s, '/' ∉ g := by
  intro s
  induction s with
  | nil => intro g hg; simp [splitSlash] at hg; simp [hg]
  | cons c rest ih =>
    intro g hg
    rw [splitSlash] at hg
    by_cases hc : c = '/'
    · rw [if_pos hc] at hg
      rcases List.mem_cons.mp hg with rfl | hmem
      · simp
      · exact ih g hmem
    · rw [if_neg hc] at hg
      cases hsp : splitSlash rest with
      | nil => rw [hsp] at hg; simp at hg; simp [hg, Ne.symm hc]
      | cons g0 gs =>
        rw [hsp] at hg
        rcases List.mem_cons.mp hg with rfl | hmem
        · intro hin
          rcases List.mem_cons.mp hin with h | h
          · exact hc h.symm
          · exact ih g0 (hsp ▸ List.mem_cons_self g0 gs) h
        · exact ih g (hsp ▸ List.mem_cons.mpr (Or.inr hmem))

theorem normStep_inv {isAbs : Bool} {stack : List (List Char)} {seg : List Char}
    (hstack : ∀ g ∈ stack, g ≠ [] ∧ g ≠ ['.'] ∧ '/' ∉ g) (hseg : '/' ∉ seg) :
    ∀ g ∈ normStep isAbs stack seg, g ≠ [] ∧ g ≠ ['.'] ∧ '/' ∉ g := by
  unfold normStep
  by_cases h1 : seg = [] ∨ seg = ['.']
  · rw [if_pos h1]; exact hstack
  · rw [if_neg h1]
    by_cases h2 : seg = ['.', '.']
    · rw [if_pos h2]
      cases stack with
      | nil =>
        cases isAbs with
        | true => intro g hg; simp at hg
        | false =>
          intro g hg
          simp at hg
          subst hg
          subst h2
          refine ⟨by simp, by simp, by decide⟩
      | cons top rest =>
        show ∀ g ∈ (if top = ['.', '.'] then seg :: top :: rest else rest),
          g ≠ [] ∧ g ≠ ['.'] ∧ '/' ∉ g
        by_cases htop : top = ['.', '.']
        · rw [if_pos htop]
          intro g hg
          rcases List.mem_cons.mp hg with rfl | hmem
          · subst h2; exact ⟨by simp, by simp, by decide⟩
          · exact hstack g hmem
        · rw [if_neg htop]
          intro g hg
          exact hstack g (List.mem_cons.mpr (Or.inr hg))
    · rw [if_neg h2]
      intro g hg
      rcases List.mem_cons.mp hg with rfl | hmem
      · push_neg at h1
        exact ⟨h1.1, h1.2, hseg⟩
      · exact hstack g hmem

theorem foldl_normStep_inv {isAbs : Bool} : ∀ (segs : List (List Char))
    (stack : List (List Char)),
    (∀ g ∈ stack, g ≠ [] ∧ g ≠ ['.'] ∧ '/' ∉ g) →
    (∀ g ∈ segs, '/' ∉ g) →
    ∀ g ∈ segs.foldl (normStep isAbs) stack, g ≠ [] ∧ g ≠ ['.'] ∧ '/' ∉ g
  | [], stack, hstack, _ => hstack
  | seg :: rest, stack, hstack, hsegs => by
    rw [List.foldl_cons]
    exact foldl_normStep_inv rest (normStep isAbs stack seg)
      (normStep_inv hstack (hsegs seg (by simp)))
      (fun g hg => hsegs g (by simp [hg]))

theorem normSegs_inv {isAbs : Bool} {segs : List (List Char)}
    (h : ∀ g ∈ segs, '/' ∉ g) :
    ∀ g ∈ normSegs isAbs segs, g ≠ [] ∧ g ≠ ['.'] ∧ '/' ∉ g := by
  intro g hg
  rw [normSegs, List.mem_reverse] at hg
  exact foldl_normStep_inv segs [] (by simp) h g hg

theorem intercalate_no_dotslash {g : List Char} {gs : List (List Char)}
    (hg1 : g ≠ []) (hg2 : g ≠ ['.']) (hg3 : '/' ∉ g) :
    (['.', '/']).isPrefixOf (intercalateSlash (g :: gs)) = false := by
  obtain ⟨t, ht⟩ : ∃ t, intercalateSlash (g :: gs) = g ++ t := by
    cases gs with
    | nil => exact ⟨[], by rw [intercalateSlash, List.append_nil]⟩
    | cons g2 gs2 => exact ⟨'/' :: intercalateSlash (g2 :: gs2), rfl⟩
  rw [ht]
  cases g with
  | nil => exact absurd rfl hg1
  | cons c g2 =>
    cases g2 with
    | nil =>
      have hc : ('.' == c) = false := by
        cases Decidable.em (c = '.') with
        | inl h => exact absurd (by rw [h]) hg2
        | inr h => exact beq_eq_false_iff_ne.mpr (fun he => h he.symm)
      simp [List.isPrefixOf, hc]
    | cons d g3 =>
      have hd : ('/' == d) = false := by
        refine beq_eq_false_iff_ne.mpr fun he => hg3 ?_
        rw [← he]
        simp
      simp [List.isPrefixOf, hd]

theorem normalize_no_dotslash (s : List Char) :
    (['.', '/']).isPrefixOf (normalizePath s) = false := by
  rw [normalizePath]
  cases hout : normSegs (s.head? = some '/') (splitSlash s) with
  | nil =>
    by_cases habs : s.head? = some '/' <;> simp [habs, List.isPrefixOf]
  | cons g gs =>
    have hinv : g ≠ [] ∧ g ≠ ['.'] ∧ '/' ∉ g :=
      normSegs_inv (splitSlash_no_slash s) g (hout ▸ List.mem_cons_self g gs)
    by_cases habs : s.head? = some '/'
    · simp [habs, List.isPrefixOf]
    · simp only [habs, if_neg, List.nil_append]
      simpa using intercalate_no_dotslash hinv.1 hinv.2.1 hinv.2.2

theorem join_no_dotslash (a b : List Char) :
    (['.', '/']).isPrefixOf (posixJoin a b) = false := by
  rw [posixJoin]
  cases hf : [a, b].filter (· ≠ []) with
  | nil => decide
  | cons p ps => exact normalize_no_dotslash _

/-! ## Lemmas about the batch orchestrator -/

theorem no_write_of_no_match {cwd : List (List Char)} {fs : List Char → Option (List Char)}
    {table : List AliasRule} {content file : List Char}
    (hfs : fs file = some content)
    (hnone : scanMatches content table = []) :
    ∀ (files : List (List Char)),
      ∀ w ∈ (replaceImports cwd fs files table).writes, w.1 ≠ file := by
  intro files
  induction files with
  | nil =>
    intro w hw
    simp [replaceImports] at hw
  | cons f rest ih =>
    intro w hw
    rw [replaceImports] at hw
    split at hw
    · simp at hw
    · rename_i ms c hfm
      split at hw
      · exact ih w hw
      · rename_i hempty
        simp only [List.mem_cons] at hw
        rcases hw with rfl | hmem
        · intro hwf
          simp only at hwf
          subst hwf
          rw [findMatches, hfs] at hfm
          simp only [Except.ok.injEq, Prod.mk.injEq] at hfm
          exact hempty (by rw [← hfm.1, hnone]; rfl)
        · exact ih w hmem

/-! ## Claim theorems -/

/-- C10: compiling an alias only translates each `*` and escapes
nothing, so a regex metacharacter such as the dot keeps its regex
meaning: the compiled matcher of the alias pattern containing a dot
accepts an import path the glob-style reading of that alias does not
denote, and the scanner then records such a path. -/
theorem c10_regex_metachar :
    ruleAccepts ⟨("@a.b/*").data, ("@a.b").data, ("src/ab").data⟩ (("@aXb/y").data) = true ∧
    specGlobAccepts (("@a.b/*").data) (("@aXb/y").data) = false ∧
    scanMatches (("import z from '@aXb/y';").data)
        [⟨("@a.b/*").data, ("@a.b").data, ("src/ab").data⟩] =
      [⟨("import z from '@aXb/y';").data, ("@a.b").data, ("@aXb/y").data, ("src/ab").data⟩] :=
  ⟨by decide, by decide, by decide⟩

/-- C6: an alias is dropped exactly when it contains some exclusion
entry as a substring (containment, not equality): membership in the
filtered entry list is characterized by the containment test,
`containsSub` is exactly substring containment, and the single alias of
the claim is dropped entirely under the exclusion list of the claim
while without exclusions it yields its rule. -/
theorem c6_substring_exclusion :
    (∀ (entries : List (List Char × List (List Char))) (excl : List (List Char))
        (e : List Char × List (List Char)),
        e ∈ filterExcluded entries excl ↔
          e ∈ entries ∧ ¬ ∃ x ∈ excl, containsSub e.1 x = true) ∧
    (∀ hay needle : List Char,
        containsSub hay needle = true ↔ ∃ u v, hay = u ++ needle ++ v) ∧
    preparePaths ⟨some ⟨some [(("@app/*").data, [("src/app").data])]⟩⟩ [("app").data] =
      .ok [] ∧
    preparePaths ⟨some ⟨some [(("@app/*").data, [("src/app").data])]⟩⟩ [] =
      .ok [⟨("@app/*").data, ("@app").data, ("src/app").data⟩] := by
  refine ⟨?_, ?_, by decide, by decide⟩
  · intro entries excl e
    rw [filterExcluded, List.mem_filter]
    constructor
    · rintro ⟨hmem, hp⟩
      rw [Bool.not_eq_true', List.any_eq_false] at hp
      exact ⟨hmem, fun ⟨x, hx, hc⟩ => hp x hx hc⟩
    · rintro ⟨hmem, hnex⟩
      refine ⟨hmem, ?_⟩
      rw [Bool.not_eq_true', List.any_eq_false]
      intro x hx hc
      exact hnex ⟨x, hx, hc⟩
  · intro hay needle
    rw [containsSub]
    exact indexOf_isSome_iff

/-- C4: a configuration without a paths mapping under compilerOptions
makes `preparePaths` fail with the configuration error — it never
returns a table, in particular not an empty one — and the whole run
fails identically for every file system and file list, so no file is
processed. -/
theorem c4_config_error (cwd : List (List Char)) (fs : List Char → Option (List Char))
    (files : List (List Char)) (excl : List (List Char)) (tsconfig : TsConfig)
    (h : tsconfig.compilerOptions = none ∨
      ∃ co, tsconfig.compilerOptions = some co ∧ co.paths = none) :
    preparePaths tsconfig excl = .error ConfigError.noPathsMapping ∧
    (∀ table, ¬ preparePaths tsconfig excl = .ok table) ∧
    runBatch cwd fs tsconfig excl files = .error ConfigError.noPathsMapping := by
  have hp : preparePaths tsconfig excl = .error ConfigError.noPathsMapping := by
    rcases h with h | ⟨co, hco, hpaths⟩
    · simp only [preparePaths, h]
    · simp only [preparePaths, hco, hpaths]
  refine ⟨hp, ?_, ?_⟩
  · intro table hok
    rw [hp] at hok
    simp at hok
  · rw [runBatch, hp]

/-- C4 witness: the failure at a concrete configuration with no
compilerOptions, independent of the file system and file list. -/
theorem c4_config_error_witness :
    preparePaths ⟨none⟩ [] = .error ConfigError.noPathsMapping ∧
    runBatch [] (fun _ => none) ⟨none⟩ [] [] = .error ConfigError.noPathsMapping :=
  ⟨(c4_config_error [] (fun _ => none) [] [] ⟨none⟩ (Or.inl rfl)).1,
   (c4_config_error [] (fun _ => none) [] [] ⟨none⟩ (Or.inl rfl)).2.2⟩

/-- C5: every table built by `preparePaths` is ordered by non-increasing
stripped-alias length; every recorded match carries the first rule in
table order whose matcher accepts its import path (so a path accepted by
no rule is never recorded); and on the alias mapping of the claim the
longer rule comes first and resolves the import path of the claim. -/
theorem c5_longest_first :
    (∀ (tsconfig : TsConfig) (excl : List (List Char)) (table : List AliasRule),
        preparePaths tsconfig excl = .ok table →
        List.Chain' (fun a b => b.aliasName.length ≤ a.aliasName.length) table) ∧
    (∀ (content : List Char) (table : List AliasRule) (mrec : MatchRec),
        mrec ∈ scanMatches content table →
        ∃ r ∈ table, table.find? (fun x => ruleAccepts x mrec.importPath) = some r ∧
          ruleAccepts r mrec.importPath = true ∧
          mrec.aliasName = r.aliasName ∧ mrec.aliasPath = r.path) ∧
    preparePaths ⟨some ⟨some [(("@app/*").data, [("src/app").data]),
        (("@app/core/*").data, [("src/app/core").data])]⟩⟩ [] =
      .ok [⟨("@app/core/*").data, ("@app/core").data, ("src/app/core").data⟩,
           ⟨("@app/*").data, ("@app").data, ("src/app").data⟩] ∧
    scanMatches (("import w from '@app/core/widgets/x';").data)
        [⟨("@app/core/*").data, ("@app/core").data, ("src/app/core").data⟩,
         ⟨("@app/*").data, ("@app").data, ("src/app").data⟩] =
      [⟨("import w from '@app/core/widgets/x';").data, ("@app/core").data,
        ("@app/core/widgets/x").data, ("src/app/core").data⟩] := by
  refine ⟨?_, ?_, by decide, by decide⟩
  · intro tsconfig excl table h
    rw [preparePaths] at h
    split at h
    · simp at h
    · split at h
      · simp at h
      · split at h
        · simp at h
        · rw [Except.ok.injEq] at h
          subst h
          exact chain_sortRules _
  · intro content table mrec hmem
    rw [scanMatches] at hmem
    rcases List.mem_filterMap.mp hmem with ⟨mc, _, hmap⟩
    rcases Option.map_eq_some'.mp hmap with ⟨r, hfind, hbuild⟩
    subst hbuild
    have hacc : ruleAccepts r mc.2 = true := by
      have := List.find?_some hfind
      simpa using this
    exact ⟨r, List.mem_of_find?_eq_some hfind, hfind, hacc, rfl, rfl⟩

/-- C5 witness: the sortedness and first-match facts at the concrete
table and import of the claim. -/
theorem c5_longest_first_witness :
    List.Chain' (fun a b => b.aliasName.length ≤ a.aliasName.length)
      ([⟨("@app/core/*").data, ("@app/core").data, ("src/app/core").data⟩,
        ⟨("@app/*").data, ("@app").data, ("src/app").data⟩] : List AliasRule) ∧
    (∃ r ∈ ([⟨("@app/core/*").data, ("@app/core").data, ("src/app/core").data⟩,
             ⟨("@app/*").data, ("@app").data, ("src/app").data⟩] : List AliasRule),
      (([⟨("@app/core/*").data, ("@app/core").data, ("src/app/core").data⟩,
         ⟨("@app/*").data, ("@app").data, ("src/app").data⟩] : List AliasRule).find?
          (fun x => ruleAccepts x (⟨("import w from '@app/core/widgets/x';").data,
            ("@app/core").data, ("@app/core/widgets/x").data,
            ("src/app/core").data⟩ : MatchRec).importPath)) = some r ∧
        ruleAccepts r ((⟨("import w from '@app/core/widgets/x';").data,
            ("@app/core").data, ("@app/core/widgets/x").data,
            ("src/app/core").data⟩ : MatchRec).importPath) = true ∧
        (⟨("import w from '@app/core/widgets/x';").data,
            ("@app/core").data, ("@app/core/widgets/x").data,
            ("src/app/core").data⟩ : MatchRec).aliasName = r.aliasName ∧
        (⟨("import w from '@app/core/widgets/x';").data,
            ("@app/core").data, ("@app/core/widgets/x").data,
            ("src/app/core").data⟩ : MatchRec).aliasPath = r.path) :=
  ⟨c5_longest_first.1 ⟨some ⟨some [(("@app/*").data, [("src/app").data]),
      (("@app/core/*").data, [("src/app/core").data])]⟩⟩ []
      ([⟨("@app/core/*").data, ("@app/core").data, ("src/app/core").data⟩,
        ⟨("@app/*").data, ("@app").data, ("src/app").data⟩] : List AliasRule) (by decide),
   c5_longest_first.2.1 (("import w from '@app/core/widgets/x';").data)
      ([⟨("@app/core/*").data, ("@app/core").data, ("src/app/core").data⟩,
        ⟨("@app/*").data, ("@app").data, ("src/app").data⟩] : List AliasRule)
      (⟨("import w from '@app/core/widgets/x';").data,
        ("@app/core").data, ("@app/core/widgets/x").data,
        ("src/app/core").data⟩ : MatchRec) (by decide)⟩

/-- C3 counterexample: with an unreadable first file and a readable
second file containing a rewritable alias import, the batch stops at the
unreadable file — the second file is neither scanned nor rewritten
(writes empty, count zero), although alone it would have produced one
rewrite.  The claim that every remaining file is still scanned and
rewritten is false for the code, which has no per-file error handling. -/
theorem c3_counterexample :
    replaceImports []
        (fun p => if p = ("good.ts").data
          then some (("import a from '@app/x';").data) else none)
        [("bad.ts").data, ("good.ts").data]
        [⟨("@app/*").data, ("@app").data, ("src/app").data⟩] =
      ⟨0, [], some (.unreadable (("bad.ts").data))⟩ ∧
    replaceImports []
        (fun p => if p = ("good.ts").data
          then some (("import a from '@app/x';").data) else none)
        [("good.ts").data]
        [⟨("@app/*").data, ("@app").data, ("src/app").data⟩] =
      ⟨1, [(("good.ts").data, ("import a from 'src/app/x';").data)], none⟩ :=
  ⟨by decide, by decide⟩

/-- C3 amended: an empty file list yields count zero, no write and no
error; but a failure reading a file ends the batch at that file — the
remaining files are not processed — while a readable zero-match file is
skipped and processing continues with the remaining files. -/
theorem c3_amended :
    (∀ (cwd : List (List Char)) (fs : List Char → Option (List Char))
        (table : List AliasRule),
        replaceImports cwd fs [] table = ⟨0, [], none⟩) ∧
    (∀ (cwd : List (List Char)) (fs : List Char → Option (List Char))
        (table : List AliasRule) (f : List Char) (rest : List (List Char)),
        fs f = none →
        replaceImports cwd fs (f :: rest) table = ⟨0, [], some (.unreadable f)⟩) ∧
    (∀ (cwd : List (List Char)) (fs : List Char → Option (List Char))
        (table : List AliasRule) (f content : List Char) (rest : List (List Char)),
        fs f = some content → scanMatches content table = [] →
        replaceImports cwd fs (f :: rest) table = replaceImports cwd fs rest table) := by
  refine ⟨?_, ?_, ?_⟩
  · intro cwd fs table
    rw [replaceImports]
  · intro cwd fs table f rest hf
    rw [replaceImports]
    simp only [findMatches, hf]
  · intro cwd fs table f content rest hf hscan
    rw [replaceImports]
    simp only [findMatches, hf, hscan]
    rfl

/-- C3 amended witness: the error stop and the zero-match skip at
concrete inputs. -/
theorem c3_amended_witness :
    replaceImports [] (fun _ => none) [("a.ts").data] [] =
      ⟨0, [], some (.unreadable (("a.ts").data))⟩ ∧
    replaceImports [] (fun _ => some (("const x = 1;").data)) [("a.ts").data] [] =
      replaceImports [] (fun _ => some (("const x = 1;").data)) [] [] :=
  ⟨c3_amended.2.1 [] (fun _ => none) [] (("a.ts").data) [] rfl,
   c3_amended.2.2 [] (fun _ => some (("const x = 1;").data)) [] (("a.ts").data)
     (("const x = 1;").data) [] rfl (by decide)⟩

/-- C7 counterexample: the suffix is computed by
`importPath.replace(alias, '')`, which removes the first occurrence of
the stripped alias anywhere in the literal, not only a front-anchored
one.  For the alias pattern whose wildcard sits in the middle, the
stripped alias occurs first at position 2 of a matching literal: the
code removes that inner occurrence while a front-anchored removal would
remove nothing, and the full pipeline rewrites accordingly. -/
theorem c7_counterexample :
    ruleAccepts ⟨("a/*x").data, ("ax").data, ("src/lib").data⟩ (("a/axx").data) = true ∧
    stripWild (("a/*x").data) = ("ax").data ∧
    suffixFor ⟨[], ("ax").data, ("a/axx").data, ("src/lib").data⟩ = ("a/x").data ∧
    specFrontRemoval (("ax").data) (("a/axx").data) = ("a/axx").data ∧
    ¬ (("a/x").data = ("a/axx").data) ∧
    replaceImports []
        (fun p => if p = ("p/f.ts").data
          then some (("import q from 'a/axx';").data) else none)
        [("p/f.ts").data]
        [⟨("a/*x").data, ("ax").data, ("src/lib").data⟩] =
      ⟨1, [(("p/f.ts").data, ("import q from '../src/lib/a/x';").data)], none⟩ :=
  ⟨by decide, by decide, by decide, by decide, by decide, by decide⟩

/-- C7 amended: the suffix removes exactly the first occurrence of the
stripped alias, wherever it stands; when the stripped alias is a prefix
of the literal — the case of every trailing-wildcard alias — this
coincides with the front-anchored removal of the claim, and an
occurrence after the removed one is never touched. -/
theorem c7_amended :
    (∀ m : MatchRec, m.aliasName.isPrefixOf m.importPath = true →
        suffixFor m = m.importPath.drop m.aliasName.length) ∧
    (∀ (m : MatchRec) (u v : List Char), m.importPath = u ++ m.aliasName ++ v →
        indexOfL m.aliasName m.importPath = some u.length →
        suffixFor m = u ++ v) := by
  constructor
  · intro m h
    rw [suffixFor, replaceFirst_front h]
    rfl
  · intro m u v hdec hidx
    rw [suffixFor, hdec]
    rw [hdec] at hidx
    simpa using replace_at u v hidx

/-- C7 amended witness: front-anchored removal for a prefix alias, and
preservation of a second occurrence. -/
theorem c7_amended_witness :
    suffixFor ⟨[], ("@app").data, ("@app/ui/a").data, []⟩ =
      (("@app/ui/a").data).drop ((("@app").data).length) ∧
    suffixFor ⟨[], ("@app").data, ("@app/x/@app/y").data, []⟩ =
      [] ++ ("/x/@app/y").data :=
  ⟨c7_amended.1 ⟨[], ("@app").data, ("@app/ui/a").data, []⟩ (by decide),
   c7_amended.2 ⟨[], ("@app").data, ("@app/x/@app/y").data, []⟩ []
     (("/x/@app/y").data) (by decide) (by decide)⟩

/-- C9: on a file whose import paths are accepted by no alias rule, the
scan records nothing, `findMatches` hands back the content byte for
byte, and no batch run ever submits that file to the write boundary. -/
theorem c9_idempotent (cwd : List (List Char)) (fs : List Char → Option (List Char))
    (table : List AliasRule) (content file : List Char)
    (hfs : fs file = some content)
    (hnone : ∀ mc ∈ scanText content, table.find? (fun r => ruleAccepts r mc.2) = none) :
    scanMatches content table = [] ∧
    findMatches fs file table = .ok ([], content) ∧
    ∀ (files : List (List Char)),
      ∀ w ∈ (replaceImports cwd fs files table).writes, w.1 ≠ file := by
  have hscan : scanMatches content table = [] := by
    rw [scanMatches, List.filterMap_eq_nil_iff]
    intro mc hmc
    rw [hnone mc hmc]
    rfl
  refine ⟨hscan, ?_, no_write_of_no_match hfs hscan⟩
  simp only [findMatches, hfs, hscan]

/-- C9 witness: a file whose single import is already relative is left
as it is at concrete inputs. -/
theorem c9_idempotent_witness :
    scanMatches (("import { C } from './local/c';\nconst y = 2;").data)
      [⟨("@app/*").data, ("@app").data, ("src/app").data⟩] = [] ∧
    findMatches
        (fun p => if p = ("x.ts").data
          then some (("import { C } from './local/c';\nconst y = 2;").data) else none)
        (("x.ts").data)
        [⟨("@app/*").data, ("@app").data, ("src/app").data⟩] =
      .ok ([], ("import { C } from './local/c';\nconst y = 2;").data) :=
  ⟨(c9_idempotent [] (fun p => if p = ("x.ts").data
      then some (("import { C } from './local/c';\nconst y = 2;").data) else none)
      [⟨("@app/*").data, ("@app").data, ("src/app").data⟩]
      (("import { C } from './local/c';\nconst y = 2;").data) (("x.ts").data)
      (by decide) (by decide)).1,
   (c9_idempotent [] (fun p => if p = ("x.ts").data
      then some (("import { C } from './local/c';\nconst y = 2;").data) else none)
      [⟨("@app/*").data, ("@app").data, ("src/app").data⟩]
      (("import { C } from './local/c';\nconst y = 2;").data) (("x.ts").data)
      (by decide) (by decide)).2.1⟩

/-- C2 counterexample: no leading `./` is ever prepended.  For
an importing file directly inside `src` and the alias target `src/...`,
the joined result begins with neither `./` nor `../` (it does not even
begin with a dot) and is substituted into the statement as it is. -/
theorem c2_counterexample :
    newPathFor [] (("src/foo.ts").data)
        ⟨("import { B } from '@components/button';").data, ("@components").data,
          ("@components/button").data, ("src/components").data⟩ =
      ("components/button").data ∧
    (['.']).isPrefixOf (("components/button").data) = false ∧
    replaceImports []
        (fun p => if p = ("src/foo.ts").data
          then some (("import { B } from '@components/button';").data) else none)
        [("src/foo.ts").data]
        [⟨("@components/*").data, ("@components").data, ("src/components").data⟩] =
      ⟨1, [(("src/foo.ts").data,
        ("import { B } from 'components/button';").data)], none⟩ :=
  ⟨by decide, by decide, by decide⟩

/-- C2 amended: the replacement path is exactly join(relBase, suffix)
with forward-slash separators and nothing prepended: the normalization
inside the join means the result never begins with `./` (for any
working directory, importing file and match), it begins with `../`
exactly when the relative base climbs out of the importing directory —
as in the example of the claim, which still rewrites to
`../components/button` — and otherwise it is substituted bare. -/
theorem c2_amended :
    (∀ (cwd : List (List Char)) (target : List Char) (m : MatchRec),
        (['.', '/']).isPrefixOf (newPathFor cwd target m) = false) ∧
    newPathFor [] (("src/pages/home.tsx").data)
        ⟨("import { Button } from '@components/button';").data, ("@components").data,
          ("@components/button").data, ("src/components").data⟩ =
      ("../components/button").data ∧
    replaceImports []
        (fun p => if p = ("src/pages/home.tsx").data
          then some (("import { Button } from '@components/button';").data) else none)
        [("src/pages/home.tsx").data]
        [⟨("@components/*").data, ("@components").data, ("src/components").data⟩] =
      ⟨1, [(("src/pages/home.tsx").data,
        ("import { Button } from '../components/button';").data)], none⟩ := by
  refine ⟨?_, by decide, by decide⟩
  intro cwd target m
  rw [newPathFor]
  exact join_no_dotslash _ _

/-- C1 counterexample: the statement text is rewritten with
`match.replace(importPath, newPath)`, which replaces the first
occurrence of the import path anywhere in the statement.  When the
bindings clause contains the same token as the quoted literal (exact
alias `utils`), the binding is replaced and the literal is left alone:
the output statement no longer starts with `import utils from`, and it
differs from the output the claim predicts. -/
theorem c1_counterexample :
    replaceImports []
        (fun p => if p = ("a/b.ts").data
          then some (("import utils from 'utils';").data) else none)
        [("a/b.ts").data]
        [⟨("utils").data, ("utils").data, ("src/utils").data⟩] =
      ⟨1, [(("a/b.ts").data,
        ("import ../src/utils from 'utils';").data)], none⟩ ∧
    (("import utils from ").data).isPrefixOf
        (("import ../src/utils from 'utils';").data) = false ∧
    ¬ (("import ../src/utils from 'utils';").data =
        ("import utils from '../src/utils';").data) :=
  ⟨by decide, by decide, by decide⟩

/-- C1 amended: the rewrite replaces the first occurrence of the import
path inside the statement and the first occurrence of the statement
inside the file.  When the first occurrence of the import path in the
statement is the quoted literal and the first occurrence of the
statement in the file is the matched one, exactly the literal is
replaced and every other byte is preserved; a file with two
alias imports and one relative import rewrites exactly the two and leaves the
rest byte-identical. -/
theorem c1_amended :
    (∀ (cwd : List (List Char)) (target u v m1 m2 : List Char) (m : MatchRec),
        m.text = m1 ++ m.importPath ++ m2 →
        indexOfL m.importPath m.text = some m1.length →
        indexOfL m.text (u ++ m.text ++ v) = some u.length →
        replaceAliases cwd [m] (u ++ m.text ++ v) target =
          u ++ (m1 ++ newPathFor cwd target m ++ m2) ++ v) ∧
    replaceImports []
        (fun p => if p = ("src/feature/f.ts").data
          then some (("import { A } from '@app/ui/a';\nimport B from \"@lib/b\";\nimport { C } from './local/c';\nconst x = 1;\n").data)
          else none)
        [("src/feature/f.ts").data]
        [⟨("@app/*").data, ("@app").data, ("src/app").data⟩,
         ⟨("@lib/*").data, ("@lib").data, ("src/lib").data⟩] =
      ⟨2, [(("src/feature/f.ts").data,
        ("import { A } from '../app/ui/a';\nimport B from \"../lib/b\";\nimport { C } from './local/c';\nconst x = 1;\n").data)],
        none⟩ := by
  refine ⟨?_, by decide⟩
  intro cwd target u v m1 m2 m htext hidx1 hidx2
  rw [replaceAliases, List.foldl_cons, List.foldl_nil]
  have hfix : replaceFirstL m.importPath (newPathFor cwd target m) m.text =
      m1 ++ newPathFor cwd target m ++ m2 := by
    rw [htext] at hidx1
    rw [htext]
    exact replace_at m1 m2 hidx1
  rw [hfix]
  exact replace_at u v hidx2

/-- C1 amended witness: the frame property at a concrete one-import file
with leading and trailing text. -/
theorem c1_amended_witness :
    replaceAliases [] [⟨("import { B } from '@components/button';").data,
        ("@components").data, ("@components/button").data, ("src/components").data⟩]
        ((("// a\n").data) ++ (("import { B } from '@components/button';").data) ++
          (("\nconst z = 3;\n").data))
        (("src/foo.ts").data) =
      (("// a\n").data) ++
        ((("import { B } from '").data) ++
          newPathFor [] (("src/foo.ts").data)
            ⟨("import { B } from '@components/button';").data, ("@components").data,
              ("@components/button").data, ("src/components").data⟩ ++
          (("';").data)) ++
        (("\nconst z = 3;\n").data) :=
  c1_amended.1 [] (("src/foo.ts").data) (("// a\n").data) (("\nconst z = 3;\n").data)
    (("import { B } from '").data) (("';").data)
    ⟨("import { B } from '@components/button';").data, ("@components").data,
      ("@components/button").data, ("src/components").data⟩
    (by decide) (by decide) (by decide)

/-- C8 counterexample: the trailing semicolon is required by the regex
of the scanner, not optional: the same statement is found with the
semicolon and not found without it. -/
theorem c8_counterexample :
    scanText (("import a from '@app/x'").data) = [] ∧
    scanText (("import a from '@app/x';").data) =
      [((("import a from '@app/x';").data), ("@app/x").data)] :=
  ⟨by decide, by decide⟩

/-- C8 amended: a statement is matched at a position exactly when it has
the shape: `import`, whitespace, a bindings clause of word characters,
braces, commas, `*` and whitespace, `from`, whitespace, a single- or
double-quoted non-empty literal, and a MANDATORY trailing semicolon;
the captured path is the text inside the quotes. -/
theorem c8_amended :
    (∀ s m lit r : List Char, matchImport s = some (m, lit, r) →
        s = m ++ r ∧ specImportShape m lit) ∧
    (∀ s : List Char, (matchImport s).isSome = true ↔
        ∃ m lit r, s = m ++ r ∧ specImportShape m lit) := by
  have sound : ∀ s m lit r : List Char, matchImport s = some (m, lit, r) →
      s = m ++ r ∧ specImportShape m lit := by
    intro s m lit r h
    obtain ⟨hs, hcc⟩ := matchElems_sound importRE s m lit r h
    exact ⟨hs, consumes_importRE_iff.mp hcc⟩
  refine ⟨sound, ?_⟩
  intro s
  constructor
  · intro h
    rcases Option.isSome_iff_exists.mp h with ⟨⟨m, lit, r⟩, hm⟩
    exact ⟨m, lit, r, sound s m lit r hm⟩
  · rintro ⟨m, lit, r, rfl, hshape⟩
    exact matchElems_complete importRE m lit (consumes_importRE_iff.mpr hshape) r

/-- C8 amended witness: the shape extracted from a concrete match. -/
theorem c8_amended_witness :
    (("import a from 'x';").data) = (("import a from 'x';").data) ++ [] ∧
    specImportShape (("import a from 'x';").data) (("x").data) :=
  c8_amended.1 (("import a from 'x';").data) (("import a from 'x';").data)
    (("x").data) [] (by decide)

end TsAlias
